import Mathlib

/-!
Shallow embedding of the hexbomb hex-dump utility (src/main.rs).

The program reads bytes from a file or stdin and renders them as a
formatted table.  We model:

* the offset-resolution block of `main` (lines 79-113), over the
  semantics of `std::fs::File::seek` (POSIX `lseek`): seeking from
  `Start` succeeds for any non-negative target, including past the end
  of the file; seeking to a resulting negative absolute position fails;
* the read loop of `dump_file` (lines 144-195), both over an honest
  finite byte source (a `List Nat`, `read n` returning the next
  `min n remaining` bytes) and over an arbitrary delivery function
  `σ : Nat → Nat → Nat` (position, requested ↦ delivered count) so that
  misbehaving and infinite sources can be discussed;
* the pure rendering functions `top_line`, `bottom_line`, `empty_line`,
  `line_number` and `line` (lines 198-317), with the terminal-styling
  wrapper (`colored`) taken as the identity transform, as the spec
  directs.

Machine integers: `usize`/`u64` arithmetic is modelled on `Nat` with
explicit wrapping modulo `2^64` where the Rust code can wrap
(`bytes_remaining -= num_bytes` compiles to a wrapping subtraction in
release builds); `i64` values are modelled as `Int` with explicit
two's-complement wrapping where the code casts.
-/

/-- Number of values of `usize`/`u64` (the program targets 64-bit). -/
def USIZE : Nat := 2 ^ 64

/-- Wrap an integer into the `i64` range, two's complement. -/
def i64Wrap (x : Int) : Int := (x + 2 ^ 63) % 2 ^ 64 - 2 ^ 63

/-- Model of `file_size as i64` (a `u64`-to-`i64` as-cast). -/
def i64OfNat (n : Nat) : Int := i64Wrap n

/-- Model of an `i64`-to-`usize` as-cast: reinterpret modulo `2^64`. -/
def usizeOfInt (x : Int) : Nat := (x % 2 ^ 64).toNat

/-- Model of `usize` subtraction `a - b` as compiled in release mode:
wrapping modulo `2^64`.  This is the semantics of the update
`bytes_remaining -= num_bytes` at line 178 of `dump_file` (in debug
builds the same underflow panics instead; either way it does not
saturate). -/
def usizeWrapSub (a b : Nat) : Nat := (a % USIZE + (USIZE - b % USIZE)) % USIZE

/-- Model of the offset-resolution block of `main` (src/main.rs lines
79-113) for a seekable file of length `L` and requested offset
`offset : i64`.  Returns `(read start position, display_offset)` on
success.  Seek semantics are those of `std::fs::File` (POSIX `lseek`):
`SeekFrom::Start(p)` succeeds for every `p : u64`, even past
end-of-file; `SeekFrom::End(d)` fails when the resulting absolute
position `L + d` is negative.  For a negative offset the code first
queries the length via `SeekFrom::End(0)`, computes
`display_offset = (file_size as i64 + offset) as usize`, then performs
the seek `SeekFrom::End(offset)`. -/
def resolve_offset (L : Nat) (offset : Int) : Except String (Nat × Nat) :=
  if 0 < offset then
    Except.ok (usizeOfInt offset, usizeOfInt offset)
  else if offset < 0 then
    if i64Wrap (i64OfNat L + offset) < 0 then
      Except.error "cannot seek to the specified offset"
    else
      Except.ok ((i64Wrap (i64OfNat L + offset)).toNat, usizeOfInt (i64Wrap (i64OfNat L + offset)))
  else
    Except.ok (0, 0)

/-- Uppercase hexadecimal digit, as produced by Rust `{:X}` formatting. -/
def hexDigit (n : Nat) : Char :=
  if n < 10 then Char.ofNat (48 + n) else Char.ofNat (55 + n)

/-- Fuelled digit expansion of `{:X}` formatting of a `usize` value:
most significant digit first, a single `"0"` for zero. -/
def toHexDigits : Nat → Nat → List Char
  | 0, _ => []
  | fuel + 1, n =>
    if n < 16 then [hexDigit n] else toHexDigits fuel (n / 16) ++ [hexDigit (n % 16)]

/-- Model of Rust `format!("{:X}", offset)` on a `usize` offset. -/
def natToHex (n : Nat) : String := String.mk (toHexDigits (n + 1) n)

/-- Model of Rust `format!("{:02X}", byte)` on a `u8`. -/
def hexByte (b : Nat) : String := String.mk [hexDigit (b / 16 % 16), hexDigit (b % 16)]

/-- Model of `line_number` (src/main.rs lines 270-281): the data-row
offset field.  More than 8 hex digits: the bare digits, unpadded.
Otherwise: a leading space, then `8 - len` middle dots, then the
digits. -/
def line_number (offset : Nat) : String :=
  let number := natToHex offset
  if 8 < number.length then number
  else " " ++ String.mk (List.replicate (8 - number.length) '·') ++ number

/-- One hex byte-cell of a data row (the per-index body of the first
loop of `line`, lines 291-295): `" XX"` for a valid index, `"   "`
(three blanks) past the chunk's valid length. -/
def hexCell (bytes : List Nat) (numBytes i : Nat) : String :=
  if i < numBytes then " " ++ hexByte (bytes.getD i 0) else "   "

/-- Whether a token of the hex region is the group-separator glyph
`" ┆"` (as opposed to a three-character byte-cell). -/
def isGapTok (s : String) : Bool := s == " ┆"

/-- The tokens pushed for column `i` by the hex loop of `line`
(lines 287-296): the group separator `" ┆"` when `i` is a nonzero
multiple of 8, then the byte-cell. -/
def hexBlock (bytes : List Nat) (numBytes i : Nat) : List String :=
  (if 0 < i ∧ i % 8 = 0 then [" ┆"] else []) ++ [hexCell bytes numBytes i]

/-- All tokens of the hex region of a data row, in push order. -/
def hexTokens (bytes : List Nat) (numBytes w : Nat) : List String :=
  (List.range w).flatMap (hexBlock bytes numBytes)

/-- One character-cell of a data row (the per-index body of the second
loop of `line`, lines 304-312). -/
def charCell (bytes : List Nat) (numBytes i : Nat) : String :=
  if i < numBytes then
    let b := bytes.getD i 0
    if 31 < b ∧ b < 127 then String.mk [Char.ofNat b] else "·"
  else " "

/-- The tokens pushed for column `i` by the character loop of `line`. -/
def charBlock (bytes : List Nat) (numBytes i : Nat) : List String :=
  (if 0 < i ∧ i % 8 = 0 then ["┆"] else []) ++ [charCell bytes numBytes i]

/-- All tokens of the character region of a data row, in push order. -/
def charTokens (bytes : List Nat) (numBytes w : Nat) : List String :=
  (List.range w).flatMap (charBlock bytes numBytes)

/-- Model of `line` (src/main.rs lines 284-317): one rendered data row,
with styling taken as the identity. -/
def line (bytes : List Nat) (numBytes offset w : Nat) : String :=
  "│" ++ line_number offset ++ " " ++ "│"
    ++ String.join (hexTokens bytes numBytes w)
    ++ " │ "
    ++ String.join (charTokens bytes numBytes w)
    ++ " │"

/-- The hex-region segment of the border rows (first loop of
`top_line`/`bottom_line`). -/
def borderHexSeg (w : Nat) : String :=
  String.join ((List.range w).flatMap
    (fun i => (if 0 < i ∧ i % 8 = 0 then ["──"] else []) ++ ["───"]))

/-- The character-region segment of the border rows (second loop of
`top_line`/`bottom_line`). -/
def borderCharSeg (w : Nat) : String :=
  String.join ((List.range w).flatMap
    (fun i => (if 0 < i ∧ i % 8 = 0 then ["─"] else []) ++ ["─"]))

/-- Model of `top_line` (src/main.rs lines 198-219). -/
def top_line (w : Nat) : String :=
  "┌──────────┬" ++ borderHexSeg w ++ "─┬─" ++ borderCharSeg w ++ "─┐"

/-- Model of `bottom_line` (src/main.rs lines 222-243). -/
def bottom_line (w : Nat) : String :=
  "└──────────┴" ++ borderHexSeg w ++ "─┴─" ++ borderCharSeg w ++ "─┘"

/-- The offset field of the empty row: Rust `format!("{:8X}", offset)`,
right-aligned in a minimum-width-8 field, filled with spaces; wider
values print at full width. -/
def emptyOffsetField (offset : Nat) : String :=
  let number := natToHex offset
  if 8 ≤ number.length then number
  else String.mk (List.replicate (8 - number.length) ' ') ++ number

/-- Model of `empty_line` (src/main.rs lines 246-267): the row printed
when zero bytes were read. -/
def empty_line (offset w : Nat) : String :=
  "│ " ++ emptyOffsetField offset ++ " │"
    ++ String.join ((List.range w).flatMap
        (fun i => (if 0 < i ∧ i % 8 = 0 then ["  "] else []) ++ ["   "]))
    ++ " │ "
    ++ String.join ((List.range w).flatMap
        (fun i => (if 0 < i ∧ i % 8 = 0 then [" "] else []) ++ [" "]))
    ++ " │"

/-- The `max_bytes` computation of the read loop (src/main.rs lines
164-170): the chunk size requested this iteration. -/
def maxBytesFor (readAll : Bool) (w rem : Nat) : Nat :=
  if readAll then w else if w < rem then w else rem

/-- Initial value of `bytes_remaining` (src/main.rs line 152):
`usize::MAX` in read-all mode, the requested count otherwise. -/
def initRem (readAll : Bool) (numToRead : Nat) : Nat :=
  if readAll then USIZE - 1 else numToRead

/-- Fuelled model of the read loop of `dump_file` (src/main.rs lines
162-188) over an honest finite source: `read` on a `List Nat` source
returns its next `min requested remaining` bytes.  Returns the list of
chunks read, in order.  The fuel only bounds the number of iterations;
`read_chunks` below instantiates it with a provably sufficient value,
and `read_chunks_eq` shows the result satisfies the loop's own
recursion equation, so the fuel is invisible. -/
def readChunksFuel (w : Nat) (readAll : Bool) : Nat → Nat → List Nat → List (List Nat)
  | 0, _, _ => []
  | fuel + 1, rem, src =>
    let mb := maxBytesFor readAll w rem
    let chunk := src.take mb
    if chunk.length = 0 then []
    else chunk :: readChunksFuel w readAll fuel (usizeWrapSub rem chunk.length) (src.drop mb)

/-- The chunks read by the loop of `dump_file` from an honest finite
source, in order. -/
def read_chunks (w : Nat) (readAll : Bool) (rem : Nat) (src : List Nat) : List (List Nat) :=
  readChunksFuel w readAll (src.length + 1) rem src

/-- Total number of bytes in a list of chunks (the final value of
`bytes_read`). -/
def sumLens (cs : List (List Nat)) : Nat := (cs.map List.length).sum

/-- The data rows printed by the loop: one `line` per chunk, each at
`display_offset + bytes_read` as of its iteration (line 176). -/
def renderChunks (w : Nat) : Nat → List (List Nat) → List String
  | _, [] => []
  | off, c :: cs => line c c.length off w :: renderChunks w (off + c.length) cs

/-- Model of `dump_file` (src/main.rs lines 144-195): the full ordered
list of printed lines for an honest finite source. -/
def dump_file (w : Nat) (readAll : Bool) (numToRead dispOff : Nat) (src : List Nat)
    : List String :=
  let chunks := read_chunks w readAll (initRem readAll numToRead) src
  [top_line w] ++ renderChunks w dispOff chunks
    ++ (if sumLens chunks = 0 then [empty_line dispOff w] else [])
    ++ [bottom_line w]

/-- Fuelled model of the same read loop over an arbitrary delivery
function `σ pos requested = delivered`, recording `(offset, length)`
pairs.  `none` means the loop has not terminated within `fuel`
iterations; `some chunks` means it hit the `num_bytes == 0` break.
This generic form lets misbehaving (over-delivering) and infinite
sources be discussed. -/
def chunkLoop (w : Nat) (readAll : Bool) (σ : Nat → Nat → Nat)
    : Nat → Nat → Nat → Option (List (Nat × Nat))
  | 0, _, _ => none
  | fuel + 1, pos, rem =>
    let d := σ pos (maxBytesFor readAll w rem)
    if d = 0 then some []
    else (chunkLoop w readAll σ fuel (pos + d) (usizeWrapSub rem d)).map
      (fun rest => (pos, d) :: rest)

/-- The delivery function of an honest finite source of given contents:
delivers `min requested (length - pos)` bytes at position `pos`. -/
def listSource (src : List Nat) : Nat → Nat → Nat :=
  fun pos want => min want (src.length - pos)

/-! ### Arithmetic helpers for the machine-integer models -/

theorem usize_pos : 0 < USIZE := by
  unfold USIZE
  norm_num

theorem usizeWrapSub_exact (a b : Nat) (hba : b ≤ a) (ha : a < USIZE) :
    usizeWrapSub a b = a - b := by
  unfold usizeWrapSub USIZE at *
  have h64 : (2:Nat) ^ 64 = 18446744073709551616 := by norm_num
  rw [h64] at *
  omega

theorem i64Wrap_eq_self (x : Int) (h1 : -(2 ^ 63) ≤ x) (h2 : x < 2 ^ 63) :
    i64Wrap x = x := by
  unfold i64Wrap
  have h63 : (2:Int) ^ 63 = 9223372036854775808 := by norm_num
  have h64 : (2:Int) ^ 64 = 18446744073709551616 := by norm_num
  rw [h63, h64] at *
  omega

theorem usizeOfInt_eq (x : Int) (h1 : 0 ≤ x) (h2 : x < 2 ^ 64) :
    usizeOfInt x = x.toNat := by
  unfold usizeOfInt
  have h64 : (2:Int) ^ 64 = 18446744073709551616 := by norm_num
  rw [h64] at *
  omega

theorem i64OfNat_eq_self (L : Nat) (hL : L < 2 ^ 63) : i64OfNat L = L := by
  unfold i64OfNat
  apply i64Wrap_eq_self
  · have : (0:Int) ≤ L := Int.ofNat_nonneg L
    have h63 : (0:Int) ≤ 2 ^ 63 := by norm_num
    omega
  · exact_mod_cast hL

/-! ### Offset resolution (C1, C2, C6): the `main` seek block -/

/-- C2 (amended): for every positive requested offset `p` (in `i64`
range), offset resolution succeeds — `File` seeks from `Start` succeed
even past end-of-file — seeking to absolute position `p` and setting
the display offset to `p`, regardless of the source length `L`. -/
theorem pos_offset_resolves (L : Nat) (offset : Int)
    (h1 : 0 < offset) (h2 : offset < 2 ^ 63) :
    resolve_offset L offset = Except.ok (offset.toNat, offset.toNat) := by
  unfold resolve_offset
  rw [if_pos h1, usizeOfInt_eq offset (le_of_lt h1) (by nlinarith [pow_pos (show (0:Int) < 2 by norm_num) 63])]

/-- C2 (witness): at `L = 5`, `p = 10` the amended claim instantiates:
resolution succeeds with position and display offset `10`. -/
theorem pos_offset_resolves_witness :
    resolve_offset 5 10 = Except.ok (10, 10) :=
  pos_offset_resolves 5 10 (by decide) (by decide)

/-- C2 (counterexample): the claim as stated is false — for `L = 5`
and requested offset `10 > 5` the resolution does NOT fail with a seek
error; it succeeds, seeking to position `10`. -/
theorem pos_offset_past_end_no_error :
    resolve_offset 5 10 ≠ Except.error "cannot seek to the specified offset"
    ∧ resolve_offset 5 10 = Except.ok (10, 10) := by
  constructor
  · intro h
    have h2 : resolve_offset 5 10 = Except.ok (10, 10) := rfl
    rw [h2] at h
    exact Except.noConfusion h
  · rfl

/-- C1 (amended): for a negative requested offset `-k` with `k`
exceeding the source length `L`, offset resolution FAILS with a seek
error (the `SeekFrom::End(offset)` target is negative): the program
reports the error and exits; it does not clamp to the start. -/
theorem neg_offset_beyond_len_errors (L k : Nat)
    (hLk : L < k) (hk : k ≤ 2 ^ 63) (hL : L < 2 ^ 63) :
    resolve_offset L (-(k : Int)) = Except.error "cannot seek to the specified offset" := by
  unfold resolve_offset
  have hkpos : 0 < k := by omega
  have hnpos : ¬ (0 < -(k : Int)) := by
    simp only [not_lt]
    omega
  have hneg : -(k : Int) < 0 := by
    simp only [Int.neg_neg_iff_pos]
    exact_mod_cast hkpos
  rw [if_neg hnpos, if_pos hneg, i64OfNat_eq_self L hL]
  have htarget : i64Wrap ((L : Int) + -(k : Int)) = (L : Int) - (k : Int) := by
    apply i64Wrap_eq_self
    · have hk' : (k : Int) ≤ 2 ^ 63 := by exact_mod_cast hk
      have hL' : (0:Int) ≤ L := Int.ofNat_nonneg L
      omega
    · have hL' : (L : Int) < 2 ^ 63 := by exact_mod_cast hL
      have hk' : (0:Int) ≤ k := Int.ofNat_nonneg k
      omega
  have hLk' : (L : Int) < (k : Int) := by exact_mod_cast hLk
  rw [htarget, if_pos (show (L : Int) - (k : Int) < 0 by omega)]

/-- C1 (witness): at `L = 2`, `k = 3` the amended claim instantiates:
resolution fails with the seek error. -/
theorem neg_offset_beyond_len_errors_witness :
    resolve_offset 2 (-(3 : Int)) = Except.error "cannot seek to the specified offset" :=
  neg_offset_beyond_len_errors 2 3 (by decide) (by decide) (by decide)

/-- C1 (counterexample): the claim as stated is false — for `L = 2`
and requested offset `-3` the resolution does NOT clamp to the start
with display offset `0`; it fails with a seek error. -/
theorem neg_offset_beyond_len_no_clamp :
    resolve_offset 2 (-(3 : Int)) ≠ Except.ok (0, 0)
    ∧ resolve_offset 2 (-(3 : Int)) = Except.error "cannot seek to the specified offset" := by
  constructor
  · intro h
    have h2 : resolve_offset 2 (-(3 : Int)) = Except.error "cannot seek to the specified offset" :=
      rfl
    rw [h2] at h
    exact Except.noConfusion h
  · rfl

/-! ### Read-loop infrastructure -/

theorem maxBytesFor_false (w rem : Nat) : maxBytesFor false w rem = min w rem := by
  unfold maxBytesFor
  simp only [Bool.false_eq_true, if_false]
  split <;> omega

theorem maxBytesFor_true (w rem : Nat) : maxBytesFor true w rem = w := rfl

/-- The fuel of `readChunksFuel` is invisible: any two fuel values
strictly above the source length give the same chunk list. -/
theorem readChunksFuel_congr (w : Nat) (ra : Bool) :
    ∀ f1 f2 rem (src : List Nat), src.length < f1 → src.length < f2 →
      readChunksFuel w ra f1 rem src = readChunksFuel w ra f2 rem src := by
  intro f1
  induction f1 with
  | zero => intro f2 rem src h1 _; omega
  | succ f1 ih =>
    intro f2 rem src h1 h2
    cases f2 with
    | zero => omega
    | succ f2 =>
      simp only [readChunksFuel]
      split
      · rfl
      · rename_i hne
        have hmb1 : 1 ≤ maxBytesFor ra w rem := by
          by_contra hc
          apply hne
          simp only [List.length_take]
          omega
        have hmb2 : 1 ≤ src.length := by
          by_contra hc
          apply hne
          simp only [List.length_take]
          omega
        congr 1
        apply ih
        · simp only [List.length_drop]
          omega
        · simp only [List.length_drop]
          omega

/-- The loop model satisfies the loop's own recursion equation: read a
chunk of `max_bytes` bytes; stop on a zero-byte read, otherwise emit
the chunk and continue with the remaining count decremented and the
source advanced. -/
theorem read_chunks_eq (w : Nat) (ra : Bool) (rem : Nat) (src : List Nat) :
    read_chunks w ra rem src =
      if (src.take (maxBytesFor ra w rem)).length = 0 then []
      else
        src.take (maxBytesFor ra w rem) ::
          read_chunks w ra (usizeWrapSub rem (src.take (maxBytesFor ra w rem)).length)
            (src.drop (maxBytesFor ra w rem)) := by
  conv_lhs => unfold read_chunks; rw [readChunksFuel]
  unfold read_chunks
  by_cases h : (src.take (maxBytesFor ra w rem)).length = 0
  · simp only [if_pos h]
  · simp only [if_neg h]
    have hmb1 : 1 ≤ maxBytesFor ra w rem := by
      by_contra hc
      apply h
      simp only [List.length_take]
      omega
    have hmb2 : 1 ≤ src.length := by
      by_contra hc
      apply h
      simp only [List.length_take]
      omega
    congr 1
    apply readChunksFuel_congr
    · simp only [List.length_drop]
      omega
    · exact Nat.lt_succ_self _

/-- Every chunk the loop emits is nonempty: the loop breaks on a
zero-byte read instead of emitting it. -/
theorem readChunksFuel_mem_ne_nil (w : Nat) (ra : Bool) :
    ∀ fuel rem (src : List Nat) c, c ∈ readChunksFuel w ra fuel rem src → c ≠ [] := by
  intro fuel
  induction fuel with
  | zero =>
    intro rem src c hc
    simp only [readChunksFuel, List.not_mem_nil] at hc
  | succ fuel ih =>
    intro rem src c hc
    simp only [readChunksFuel] at hc
    split at hc
    · simp only [List.not_mem_nil] at hc
    · rename_i hne
      rcases List.mem_cons.mp hc with h | h
      · subst h
        intro hnil
        apply hne
        rw [hnil]
        rfl
      · exact ih _ _ _ h

theorem read_chunks_mem_ne_nil (w : Nat) (ra : Bool) (rem : Nat) (src : List Nat)
    (c : List Nat) (hc : c ∈ read_chunks w ra rem src) : c ≠ [] :=
  readChunksFuel_mem_ne_nil w ra _ rem src c hc

/-- In read-all mode the loop reads the whole remaining source: the
concatenation of the emitted chunks is the source itself. -/
theorem readChunksFuel_flatten_readAll (w : Nat) (hw : 0 < w) :
    ∀ fuel (src : List Nat) rem, src.length < fuel →
      (readChunksFuel w true fuel rem src).flatten = src := by
  intro fuel
  induction fuel with
  | zero => intro src rem h; omega
  | succ fuel ih =>
    intro src rem h
    simp only [readChunksFuel, maxBytesFor_true]
    split
    · rename_i hz
      simp only [List.length_take] at hz
      have hsrc : src = [] := List.length_eq_zero.mp (by omega)
      subst hsrc
      rfl
    · rename_i hne
      simp only [List.length_take] at hne
      simp only [List.flatten_cons]
      rw [ih (src.drop w) _ (by simp only [List.length_drop]; omega)]
      exact List.take_append_drop w src

theorem read_chunks_flatten_readAll (w : Nat) (hw : 0 < w) (rem : Nat) (src : List Nat) :
    (read_chunks w true rem src).flatten = src :=
  readChunksFuel_flatten_readAll w hw _ src rem (Nat.lt_succ_self _)

/-! ### C6: negative offset within the source length -/

/-- C6: for a source of length `L` and a negative requested offset
`-k` with `0 < k ≤ L`, resolution yields display offset `L - k` and a
read start of `L - k`, and the subsequent (unbounded) read loop dumps
exactly the last `k` bytes of the source. -/
theorem neg_offset_within_len_tail (L k : Nat) (hk : 0 < k) (hkL : k ≤ L) (hL : L < 2 ^ 63)
    (w : Nat) (hw : 0 < w) (src : List Nat) (hsrc : src.length = L) :
    resolve_offset L (-(k : Int)) = Except.ok (L - k, L - k)
    ∧ (read_chunks w true (initRem true 0) (src.drop (L - k))).flatten = src.drop (L - k)
    ∧ (src.drop (L - k)).length = k := by
  refine ⟨?_, read_chunks_flatten_readAll w hw _ _, by simp only [List.length_drop]; omega⟩
  unfold resolve_offset
  have hnpos : ¬ (0 < -(k : Int)) := by
    simp only [not_lt]
    omega
  have hneg : -(k : Int) < 0 := by
    simp only [Int.neg_neg_iff_pos]
    exact_mod_cast hk
  rw [if_neg hnpos, if_pos hneg, i64OfNat_eq_self L hL]
  have hbound : (0:Int) ≤ (L : Int) + -(k : Int) := by
    have : (k : Int) ≤ (L : Int) := by exact_mod_cast hkL
    omega
  have htarget : i64Wrap ((L : Int) + -(k : Int)) = (L : Int) + -(k : Int) := by
    apply i64Wrap_eq_self
    · have h63 : (0:Int) ≤ 2 ^ 63 := by norm_num
      omega
    · have hL' : (L : Int) < 2 ^ 63 := by exact_mod_cast hL
      have hk' : (0:Int) ≤ k := Int.ofNat_nonneg k
      omega
  rw [htarget, if_neg (by omega), usizeOfInt_eq _ hbound
    (by
      have hL' : (L : Int) < 2 ^ 63 := by exact_mod_cast hL
      have hk' : (0:Int) ≤ k := Int.ofNat_nonneg k
      have : (2:Int) ^ 63 < 2 ^ 64 := by norm_num
      omega)]
  have htn : ((L : Int) + -(k : Int)).toNat = L - k := by omega
  rw [htn]

/-- C6 (witness): offset `-4` on an 8-byte source with row width 16:
resolution gives read start and display offset `4`, and the loop dumps
exactly the last 4 bytes. -/
theorem neg_offset_within_len_tail_witness :
    resolve_offset 8 (-(4 : Int)) = Except.ok (4, 4)
    ∧ (read_chunks 16 true (initRem true 0)
        ([10, 11, 12, 13, 14, 15, 16, 17].drop (8 - 4))).flatten
        = [10, 11, 12, 13, 14, 15, 16, 17].drop (8 - 4)
    ∧ (([10, 11, 12, 13, 14, 15, 16, 17] : List Nat).drop (8 - 4)).length = 4 :=
  neg_offset_within_len_tail 8 4 (by decide) (by decide) (by decide) 16 (by decide)
    [10, 11, 12, 13, 14, 15, 16, 17] (by decide)

theorem sumLens_cons (c : List Nat) (cs : List (List Nat)) :
    sumLens (c :: cs) = c.length + sumLens cs := by
  simp [sumLens]

/-- Bounded mode reads exactly `min N (available bytes)` in total. -/
theorem readChunksFuel_bounded_sum (w : Nat) (hw : 0 < w) :
    ∀ fuel (src : List Nat) N, src.length < fuel → N < USIZE →
      sumLens (readChunksFuel w false fuel N src) = min N src.length := by
  intro fuel
  induction fuel with
  | zero => intro src N h _; omega
  | succ fuel ih =>
    intro src N h hN
    simp only [readChunksFuel, maxBytesFor_false]
    split
    · rename_i hz
      simp only [List.length_take] at hz
      simp only [sumLens, List.map_nil, List.sum_nil]
      omega
    · rename_i hne
      simp only [List.length_take] at hne
      rw [sumLens_cons, List.length_take]
      rw [usizeWrapSub_exact _ _ (by omega) hN]
      rw [ih (src.drop (min w N)) _ (by simp only [List.length_drop]; omega) (by omega)]
      simp only [List.length_drop]
      omega

/-! ### C3: bounded-mode byte accounting -/

/-- C3: in bounded mode with byte limit `N` and row width `w > 0`, the
total number of bytes across all emitted chunks equals
`min N (available bytes)` and in particular never exceeds `N`; with
`N = 3` on a 10-byte source and `w = 16`, exactly one chunk of length
3 is emitted (one data row between the two borders, no second row). -/
theorem bounded_total_eq_min (w N : Nat) (src : List Nat) (hw : 0 < w) (hN : N < USIZE) :
    sumLens (read_chunks w false N src) = min N src.length
    ∧ sumLens (read_chunks w false N src) ≤ N
    ∧ read_chunks 16 false 3 [0, 1, 2, 3, 4, 5, 6, 7, 8, 9] = [[0, 1, 2]]
    ∧ (dump_file 16 false 3 0 [0, 1, 2, 3, 4, 5, 6, 7, 8, 9]).length = 3 := by
  have h1 : sumLens (read_chunks w false N src) = min N src.length :=
    readChunksFuel_bounded_sum w hw _ src N (Nat.lt_succ_self _) hN
  exact ⟨h1, by omega, by decide, by decide⟩

/-- C3 (witness): byte limit 3, 10-byte source, row width 16. -/
theorem bounded_total_eq_min_witness :
    sumLens (read_chunks 16 false 3 [0, 1, 2, 3, 4, 5, 6, 7, 8, 9])
        = min 3 ([0, 1, 2, 3, 4, 5, 6, 7, 8, 9] : List Nat).length
    ∧ sumLens (read_chunks 16 false 3 [0, 1, 2, 3, 4, 5, 6, 7, 8, 9]) ≤ 3 :=
  ⟨(bounded_total_eq_min 16 3 [0, 1, 2, 3, 4, 5, 6, 7, 8, 9] (by decide) (by decide)).1,
   (bounded_total_eq_min 16 3 [0, 1, 2, 3, 4, 5, 6, 7, 8, 9] (by decide) (by decide)).2.1⟩

/-! ### C5: strict output order and the empty row -/

theorem renderChunks_length (w : Nat) : ∀ off (cs : List (List Nat)),
    (renderChunks w off cs).length = cs.length := by
  intro off cs
  induction cs generalizing off with
  | nil => rfl
  | cons c cs ih => simp only [renderChunks, List.length_cons, ih]

/-- C5: for every input, the printed lines are exactly one top border,
then either the data rows (one per chunk, each from a nonempty chunk —
a zero-length data row is never emitted) or exactly one empty row, then
one bottom border; the empty row appears exactly when zero chunks
(zero bytes) were read. -/
theorem output_row_structure (w : Nat) (ra : Bool) (N disp : Nat) (src : List Nat) :
    (sumLens (read_chunks w ra (initRem ra N) src) = 0
        ↔ read_chunks w ra (initRem ra N) src = [])
    ∧ (∀ c ∈ read_chunks w ra (initRem ra N) src, c ≠ [])
    ∧ (read_chunks w ra (initRem ra N) src = [] →
        dump_file w ra N disp src = [top_line w, empty_line disp w, bottom_line w])
    ∧ (read_chunks w ra (initRem ra N) src ≠ [] →
        dump_file w ra N disp src
          = [top_line w] ++ renderChunks w disp (read_chunks w ra (initRem ra N) src)
              ++ [bottom_line w]
        ∧ (renderChunks w disp (read_chunks w ra (initRem ra N) src)).length
            = (read_chunks w ra (initRem ra N) src).length
        ∧ renderChunks w disp (read_chunks w ra (initRem ra N) src) ≠ []) := by
  have hmem := read_chunks_mem_ne_nil w ra (initRem ra N) src
  have hiff : sumLens (read_chunks w ra (initRem ra N) src) = 0
      ↔ read_chunks w ra (initRem ra N) src = [] := by
    cases hcs : read_chunks w ra (initRem ra N) src with
    | nil => simp [sumLens]
    | cons c cs =>
      have hc : c ≠ [] := hmem c (by rw [hcs]; exact List.mem_cons_self c cs)
      have hcpos : 0 < c.length := List.length_pos.mpr hc
      constructor
      · intro h
        rw [sumLens_cons] at h
        omega
      · intro h
        exact absurd h (List.cons_ne_nil c cs)
  refine ⟨hiff, hmem, ?_, ?_⟩
  · intro hnil
    simp [dump_file, hnil, renderChunks, sumLens]
  · intro hne
    have hsum : ¬ sumLens (read_chunks w ra (initRem ra N) src) = 0 :=
      fun h => hne (hiff.mp h)
    refine ⟨?_, renderChunks_length w disp _, ?_⟩
    · simp only [dump_file, if_neg hsum]
      simp
    · intro h
      apply hne
      have hlen : (read_chunks w ra (initRem ra N) src).length = 0 := by
        rw [← renderChunks_length w disp, h]
        rfl
      exact List.length_eq_zero.mp hlen

/-- C5 (witness): a 3-byte source in read-all mode with row width 2
yields chunks, and the output is top border, data rows, bottom border. -/
theorem output_row_structure_witness :
    dump_file 2 true 0 0 [1, 2, 3]
      = [top_line 2] ++ renderChunks 2 0 (read_chunks 2 true (initRem true 0) [1, 2, 3])
          ++ [bottom_line 2] :=
  ((output_row_structure 2 true 0 0 [1, 2, 3]).2.2.2 (by decide)).1

/-! ### C10: byte limit exactly zero -/

/-- C10: when bounded mode is selected with byte limit 0, the first
iteration requests zero bytes, the read returns zero and the loop
stops: zero data rows for every source, and the output is the top
border, one empty row at the display offset, and the bottom border. -/
theorem byte_limit_zero_empty_row (w disp : Nat) (src : List Nat) :
    read_chunks w false 0 src = []
    ∧ dump_file w false 0 disp src = [top_line w, empty_line disp w, bottom_line w] := by
  have h1 : read_chunks w false 0 src = [] := by
    rw [read_chunks_eq, maxBytesFor_false]
    simp
  refine ⟨h1, ?_⟩
  have h0 : initRem false 0 = 0 := rfl
  simp [dump_file, h0, h1, renderChunks, sumLens]

/-! ### C7: the `bytes_remaining` counter -/

/-- C7 (counterexample): the claim as stated is false — the code's
`bytes_remaining -= num_bytes` does NOT saturate.  If a misbehaving
source over-delivers (1 byte delivered with 0 remaining), the
subtraction underflows: in release semantics it wraps to
`usize::MAX = USIZE - 1`, not to 0 (in debug builds it panics). -/
theorem wrapSub_not_saturating :
    usizeWrapSub 0 1 = USIZE - 1 ∧ usizeWrapSub 0 1 ≠ 0 := by
  constructor
  · decide
  · decide

theorem maxBytesFor_le_rem (w rem : Nat) : maxBytesFor false w rem ≤ rem := by
  rw [maxBytesFor_false]
  omega

/-- C7 (amended): underflow cannot occur for a source that honors the
read cap (delivers at most the requested count): each request is capped
at `bytes_remaining`, so across any completed run of the bounded loop
the total delivered never exceeds the initial remaining count, and the
code's wrapping subtraction coincides with exact subtraction. -/
theorem remaining_no_underflow_capped (w : Nat) (σ : Nat → Nat → Nat)
    (hσ : ∀ p n, σ p n ≤ n) :
    ∀ fuel pos rem, rem < USIZE → ∀ cs, chunkLoop w false σ fuel pos rem = some cs →
      (cs.map Prod.snd).sum ≤ rem
      ∧ usizeWrapSub rem ((cs.map Prod.snd).sum) = rem - (cs.map Prod.snd).sum := by
  intro fuel
  induction fuel with
  | zero =>
    intro pos rem hrem cs h
    exact absurd h (by simp [chunkLoop])
  | succ fuel ih =>
    intro pos rem hrem cs h
    simp only [chunkLoop] at h
    by_cases hd : σ pos (maxBytesFor false w rem) = 0
    · rw [if_pos hd] at h
      injection h with h2
      subst h2
      refine ⟨Nat.zero_le rem, ?_⟩
      simpa using usizeWrapSub_exact rem 0 (Nat.zero_le rem) hrem
    · rw [if_neg hd] at h
      rcases Option.map_eq_some'.mp h with ⟨rest, hrest, hcs⟩
      subst hcs
      have hdle : σ pos (maxBytesFor false w rem) ≤ rem :=
        le_trans (hσ pos (maxBytesFor false w rem)) (maxBytesFor_le_rem w rem)
      rw [usizeWrapSub_exact _ _ hdle hrem] at hrest
      have hih := ih _ _ (by omega) rest hrest
      constructor
      · simp only [List.map_cons, List.sum_cons]
        omega
      · apply usizeWrapSub_exact
        · simp only [List.map_cons, List.sum_cons]
          omega
        · exact hrem

/-- C7 (witness): the honest source delivering exactly what is asked,
byte limit 8 and row width 4: the loop completes with chunks
`[(0,4),(4,4)]`, total 8 ≤ 8, and the subtraction is exact. -/
theorem remaining_no_underflow_capped_witness :
    (([((0:Nat), (4:Nat)), (4, 4)].map Prod.snd).sum ≤ 8)
    ∧ usizeWrapSub 8 (([((0:Nat), (4:Nat)), (4, 4)].map Prod.snd).sum)
        = 8 - (([((0:Nat), (4:Nat)), (4, 4)].map Prod.snd).sum) :=
  remaining_no_underflow_capped 4 (fun _ n => n) (fun _ _ => Nat.le_refl _)
    3 0 8 (by decide) [(0, 4), (4, 4)] (by decide)

/-! ### C8: termination of the read loop -/

/-- C8: the read loop always terminates.  (i) In bounded mode, for any
cap-honoring source — even an infinite one that always delivers what
is asked — fuel `rem + 1` suffices: the limit is exhausted and the
zero-byte read breaks the loop.  (ii) In read-all mode over a finite
source, fuel `remaining bytes + 1` suffices.  (iii) In both modes, an
iteration ends the loop (emitting no further chunk) exactly when the
read returns zero bytes. -/
theorem read_loop_terminates (w : Nat) (σ : Nat → Nat → Nat) (hσ : ∀ p n, σ p n ≤ n)
    (src : List Nat) :
    (∀ fuel pos rem, rem < fuel → rem < USIZE → chunkLoop w false σ fuel pos rem ≠ none)
    ∧ (∀ fuel pos rem, src.length - pos < fuel →
        chunkLoop w true (listSource src) fuel pos rem ≠ none)
    ∧ (∀ ra fuel pos rem,
        chunkLoop w ra σ (fuel + 1) pos rem = some [] ↔ σ pos (maxBytesFor ra w rem) = 0) := by
  refine ⟨?_, ?_, ?_⟩
  · intro fuel
    induction fuel with
    | zero => intro pos rem h _; omega
    | succ fuel ih =>
      intro pos rem h hrem
      simp only [chunkLoop]
      by_cases hd : σ pos (maxBytesFor false w rem) = 0
      · rw [if_pos hd]
        simp
      · rw [if_neg hd]
        have hdle : σ pos (maxBytesFor false w rem) ≤ rem :=
          le_trans (hσ pos (maxBytesFor false w rem)) (maxBytesFor_le_rem w rem)
        rw [usizeWrapSub_exact _ _ hdle hrem]
        intro hmap
        exact ih (pos + σ pos (maxBytesFor false w rem)) (rem - σ pos (maxBytesFor false w rem))
          (by omega) (by omega) (Option.map_eq_none'.mp hmap)
  · intro fuel
    induction fuel with
    | zero => intro pos rem h; omega
    | succ fuel ih =>
      intro pos rem h
      simp only [chunkLoop]
      by_cases hd : listSource src pos (maxBytesFor true w rem) = 0
      · rw [if_pos hd]
        simp
      · rw [if_neg hd]
        have hdle : listSource src pos (maxBytesFor true w rem) ≤ src.length - pos := by
          simp only [listSource]
          omega
        intro hmap
        exact ih (pos + listSource src pos (maxBytesFor true w rem)) _
          (by omega) (Option.map_eq_none'.mp hmap)
  · intro ra fuel pos rem
    simp only [chunkLoop]
    constructor
    · intro h
      by_contra hd
      rw [if_neg hd] at h
      rcases Option.map_eq_some'.mp h with ⟨rest, _, hcons⟩
      exact List.noConfusion hcons
    · intro hd
      rw [if_pos hd]

/-- C8 (witness): bounded mode with limit 10 terminates within 11
iterations on the always-full infinite source; read-all mode on a
3-byte finite source terminates within 4 iterations. -/
theorem read_loop_terminates_witness :
    chunkLoop 4 false (fun _ n => n) 11 0 10 ≠ none
    ∧ chunkLoop 4 true (listSource [1, 2, 3]) 4 0 99 ≠ none :=
  ⟨(read_loop_terminates 4 (fun _ n => n) (fun _ _ => Nat.le_refl _) [1, 2, 3]).1
      11 0 10 (by decide) (by decide),
   (read_loop_terminates 4 (fun _ n => n) (fun _ _ => Nat.le_refl _) [1, 2, 3]).2.1
      4 0 99 (by decide)⟩

/-! ### C4: structure of the hex region of a data row -/

theorem length_mk_replicate (n : Nat) (c : Char) :
    (String.mk (List.replicate n c)).length = n := by
  show (List.replicate n c).length = n
  simp

theorem hexCell_length (bytes : List Nat) (n i : Nat) : (hexCell bytes n i).length = 3 := by
  unfold hexCell
  split
  · rw [String.length_append]
    rfl
  · rfl

theorem hexCell_ne_gapStr (bytes : List Nat) (n i : Nat) : hexCell bytes n i ≠ " ┆" := by
  intro h
  have hl := congrArg String.length h
  rw [hexCell_length] at hl
  exact absurd hl (by decide)

theorem hexCell_not_gap (bytes : List Nat) (n i : Nat) :
    isGapTok (hexCell bytes n i) = false := by
  unfold isGapTok
  rw [beq_eq_false_iff_ne]
  exact hexCell_ne_gapStr bytes n i

theorem hexBlock_gap_count (bytes : List Nat) (n i : Nat) :
    (hexBlock bytes n i).countP isGapTok = if 0 < i ∧ i % 8 = 0 then 1 else 0 := by
  unfold hexBlock
  by_cases h : 0 < i ∧ i % 8 = 0
  · rw [if_pos h, if_pos h]
    simp [List.countP_cons, hexCell_not_gap, isGapTok, hexCell_ne_gapStr]
  · rw [if_neg h, if_neg h]
    simp [List.countP_cons, hexCell_not_gap]

theorem hexBlock_cell_count (bytes : List Nat) (n i : Nat) :
    (hexBlock bytes n i).countP (fun s => !(isGapTok s)) = 1 := by
  unfold hexBlock
  by_cases h : 0 < i ∧ i % 8 = 0
  · rw [if_pos h]
    simp [List.countP_cons, hexCell_not_gap, isGapTok, hexCell_ne_gapStr]
  · rw [if_neg h]
    simp [List.countP_cons, hexCell_not_gap]

theorem hexTokens_gap_count (bytes : List Nat) (n : Nat) :
    ∀ w, (hexTokens bytes n w).countP isGapTok = (w - 1) / 8 := by
  intro w
  induction w with
  | zero => rfl
  | succ w ih =>
    unfold hexTokens at ih ⊢
    rw [List.range_succ, List.flatMap_append, List.countP_append, ih]
    simp only [List.flatMap_cons, List.flatMap_nil, List.append_nil]
    rw [hexBlock_gap_count]
    by_cases h : 0 < w ∧ w % 8 = 0
    · rw [if_pos h]
      omega
    · rw [if_neg h]
      rcases not_and_or.mp h with h1 | h1 <;> omega

theorem hexTokens_cell_count (bytes : List Nat) (n : Nat) :
    ∀ w, (hexTokens bytes n w).countP (fun s => !(isGapTok s)) = w := by
  intro w
  induction w with
  | zero => rfl
  | succ w ih =>
    unfold hexTokens at ih ⊢
    rw [List.range_succ, List.flatMap_append, List.countP_append, ih]
    simp only [List.flatMap_cons, List.flatMap_nil, List.append_nil]
    rw [hexBlock_cell_count]

/-- C4: for row width `w > 0` and chunk length `n ≤ w`, the hex region
of a data row consists of exactly `w` three-character byte-cells
(2 uppercase hex digits preceded by a space for indices below `n`,
three blanks at and above `n`) plus exactly `(w - 1) / 8`
group-separator gaps, one inserted before each nonzero column index
that is a multiple of 8. -/
theorem hex_region_structure (bytes : List Nat) (n w : Nat) (hw : 0 < w) (hn : n ≤ w) :
    (hexTokens bytes n w).countP isGapTok = (w - 1) / 8
    ∧ (hexTokens bytes n w).countP (fun s => !(isGapTok s)) = w
    ∧ (∀ i, (hexBlock bytes n i).countP isGapTok = if 0 < i ∧ i % 8 = 0 then 1 else 0)
    ∧ (∀ i, (hexCell bytes n i).length = 3)
    ∧ (∀ i, i < n → hexCell bytes n i = " " ++ hexByte (bytes.getD i 0))
    ∧ (∀ i, n ≤ i → hexCell bytes n i = "   ") := by
  refine ⟨hexTokens_gap_count bytes n w, hexTokens_cell_count bytes n w,
    hexBlock_gap_count bytes n, hexCell_length bytes n, ?_, ?_⟩
  · intro i hi
    unfold hexCell
    rw [if_pos hi]
  · intro i hi
    unfold hexCell
    rw [if_neg (not_lt.mpr hi)]

/-- C4 (witness): row width 16 with a 3-byte chunk: 16 byte-cells and
`(16 - 1) / 8 = 1` group gap. -/
theorem hex_region_structure_witness :
    (hexTokens [72, 101, 108] 3 16).countP isGapTok = (16 - 1) / 8
    ∧ (hexTokens [72, 101, 108] 3 16).countP (fun s => !(isGapTok s)) = 16 :=
  ⟨(hex_region_structure [72, 101, 108] 3 16 (by decide) (by decide)).1,
   (hex_region_structure [72, 101, 108] 3 16 (by decide) (by decide)).2.1⟩

/-! ### C9: offset-field padding of the two row kinds -/

/-- C9 (counterexample): the claim's "widening the row" clause is
false at 9 hex digits.  The offset `0x100000000` needs 9 hex digits,
so `line_number` renders it unpadded — yet its field is 9 characters
wide, exactly the width of every padded data-row offset field (e.g.
that of offset 0), so the row is not widened. -/
theorem nine_digit_offset_same_width :
    8 < (natToHex 4294967296).length
    ∧ line_number 4294967296 = "100000000"
    ∧ (line_number 4294967296).length = (line_number 0).length := by
  refine ⟨by decide, rfl, by decide⟩

/-- C9 (amended): the empty row's offset field is right-aligned in an
8-character field padded with spaces, while a data row's offset field
pads the same value with middle dots (after a leading space); an
offset needing more than 8 hex digits is rendered unpadded at its full
width, which widens the row only beyond 9 digits — the data-row offset
field width is `max 9 (number of hex digits)`. -/
theorem offset_field_padding (offset : Nat) :
    ((natToHex offset).length ≤ 8 →
        emptyOffsetField offset
            = String.mk (List.replicate (8 - (natToHex offset).length) ' ') ++ natToHex offset
        ∧ (emptyOffsetField offset).length = 8
        ∧ line_number offset
            = " " ++ String.mk (List.replicate (8 - (natToHex offset).length) '·')
                ++ natToHex offset
        ∧ (line_number offset).length = 9)
    ∧ (8 < (natToHex offset).length →
        line_number offset = natToHex offset ∧ emptyOffsetField offset = natToHex offset)
    ∧ (line_number offset).length = max 9 (natToHex offset).length := by
  have hemp : emptyOffsetField offset
      = if 8 ≤ (natToHex offset).length then natToHex offset
        else String.mk (List.replicate (8 - (natToHex offset).length) ' ') ++ natToHex offset :=
    rfl
  have hln : line_number offset
      = if 8 < (natToHex offset).length then natToHex offset
        else " " ++ String.mk (List.replicate (8 - (natToHex offset).length) '·')
          ++ natToHex offset :=
    rfl
  have hsp : (" " : String).length = 1 := rfl
  refine ⟨?_, ?_, ?_⟩
  · intro h
    have hle : ¬ (8 < (natToHex offset).length) := by omega
    refine ⟨?_, ?_, ?_, ?_⟩
    · rw [hemp]
      by_cases h8 : 8 ≤ (natToHex offset).length
      · rw [if_pos h8]
        have he : (natToHex offset).length = 8 := by omega
        rw [he, show String.mk (List.replicate (8 - 8) ' ') = "" from rfl,
          String.empty_append]
      · rw [if_neg h8]
    · rw [hemp]
      by_cases h8 : 8 ≤ (natToHex offset).length
      · rw [if_pos h8]
        omega
      · rw [if_neg h8, String.length_append, length_mk_replicate]
        omega
    · rw [hln, if_neg hle]
    · rw [hln, if_neg hle, String.length_append, String.length_append, hsp,
        length_mk_replicate]
      omega
  · intro h
    constructor
    · rw [hln, if_pos h]
    · rw [hemp, if_pos (by omega)]
  · by_cases hgt : 8 < (natToHex offset).length
    · rw [hln, if_pos hgt]
      omega
    · rw [hln, if_neg hgt, String.length_append, String.length_append, hsp,
        length_mk_replicate]
      omega

/-- C9 (witness): at offset 0 the empty-row field is 8 characters and
the data-row field is 9 characters (leading space plus 7 dots plus one
digit). -/
theorem offset_field_padding_witness :
    (emptyOffsetField 0).length = 8 ∧ (line_number 0).length = 9 :=
  ⟨((offset_field_padding 0).1 (by decide)).2.1,
   ((offset_field_padding 0).1 (by decide)).2.2.2⟩
